import Mathlib

/-!
Shallow embedding of src/csv_wordcount.py.

Strings are modelled as lists of characters.  Python semantics modelled:
  - str.split on a one-character separator keeps empty fragments and maps
    the empty string to a single empty fragment;
  - str.lower is a per-character mapping; it is embedded here on the
    alphabet relevant to the program (ASCII letters and the accented
    letters appearing in the replacement table), identity elsewhere;
  - str.replace with a one-character pattern and a one-character
    replacement is a per-character mapping;
  - str.strip removes leading and trailing whitespace (ASCII subset);
  - dicts are insertion-ordered association lists: a new key is appended
    at the end, an existing key is updated in place.
-/

/-- Strings as lists of characters. -/
abbrev Str := List Char

/-- Whitespace characters removed by str.strip (ASCII subset). -/
def pySpaceChars : Str := [' ', '\t', '\n', '\x0b', '\x0c', '\r']

/-- Whitespace test for str.strip. -/
def pyIsSpace (c : Char) : Bool := pySpaceChars.contains c

/-- Lowercasing table for str.lower, restricted to the alphabet the
program works with: ASCII letters plus the accented letters of the
replacement table at lines 20-25 of the source. -/
def lowerPairs : List (Char × Char) :=
  [('A', 'a'), ('B', 'b'), ('C', 'c'), ('D', 'd'), ('E', 'e'), ('F', 'f'),
   ('G', 'g'), ('H', 'h'), ('I', 'i'), ('J', 'j'), ('K', 'k'), ('L', 'l'),
   ('M', 'm'), ('N', 'n'), ('O', 'o'), ('P', 'p'), ('Q', 'q'), ('R', 'r'),
   ('S', 's'), ('T', 't'), ('U', 'u'), ('V', 'v'), ('W', 'w'), ('X', 'x'),
   ('Y', 'y'), ('Z', 'z'),
   ('Á', 'á'), ('Ä', 'ä'), ('À', 'à'),
   ('É', 'é'), ('Ë', 'ë'), ('È', 'è'),
   ('Í', 'í'), ('Ï', 'ï'), ('Ì', 'ì'),
   ('Ó', 'ó'), ('Ö', 'ö'), ('Ò', 'ò'),
   ('Ú', 'ú'), ('Ü', 'ü'), ('Ù', 'ù'),
   ('Ñ', 'ñ')]

/-- Per-character lowercasing (str.lower). -/
def pyLowerChar (c : Char) : Char := (lowerPairs.lookup c).getD c

/-- str.lower on a whole string. -/
def pyLower (s : Str) : Str := s.map pyLowerChar

/-- str.replace with a one-character pattern and replacement: a
per-character substitution. -/
def replaceOne (old new : Char) (s : Str) : Str :=
  s.map fun c => if c = old then new else c

/-- Inner loop of tidy_string_def, source lines 86-87: replace every
replaceable of one replacement in turn. -/
def applyReplaceables (repl : Char) (ables : List Char) (s : Str) : Str :=
  ables.foldl (fun s old => replaceOne old repl s) s

/-- Outer loop of tidy_string_def, source lines 85-87: run over the
whole replacement dict. -/
def applyReplaceDict (table : List (Char × List Char)) (s : Str) : Str :=
  table.foldl (fun s p => applyReplaceables p.1 p.2 s) s

/-- The replacement table, source lines 20-25 (replaceable_chars). -/
def replaceable_chars : List (Char × List Char) :=
  [('a', ['á', 'ä', 'à']),
   ('e', ['é', 'ë', 'è']),
   ('i', ['í', 'ï', 'ì']),
   ('o', ['ó', 'ö', 'ò']),
   ('u', ['ú', 'ü', 'ù']),
   ('n', ['ñ'])]

/-- str.strip: drop leading and trailing whitespace. -/
def pyStrip (s : Str) : Str :=
  ((s.dropWhile pyIsSpace).reverse.dropWhile pyIsSpace).reverse

/-- tidy_string_def, source lines 74-88: lowercase, replace characters
per the replacement dict, then strip whitespace from both ends. -/
def tidy_string_def (table : List (Char × List Char)) (s : Str) : Str :=
  pyStrip (applyReplaceDict table (pyLower s))

/-- The tidy function as configured by the script: tidy_string_def with
the replaceable_chars table (source lines 206-207). -/
def tidyF : Str → Str := tidy_string_def replaceable_chars

/-- Python str.split on the comma separator: keeps empty fragments, and
the empty string yields one empty fragment (source line 66). -/
def pySplit : Str → List Str
  | [] => [[]]
  | c :: rest =>
    if c = ',' then [] :: pySplit rest
    else
      match pySplit rest with
      | [] => [[c]]
      | t :: ts => (c :: t) :: ts

/-- Number of commas in a string. -/
def commaCount (s : Str) : Nat := (s.filter (fun c => decide (c = ','))).length

/-- A frequency table: insertion-ordered association list from token to
count (one Python dict value of the result dict). -/
abbrev Table := List (Str × Nat)

/-- The result dict: insertion-ordered association list from column
index to its frequency table. -/
abbrev Result := List (Nat × Table)

/-- Count stored under a token (0 when the token is absent). -/
def countOf : Table → Str → Nat
  | [], _ => 0
  | (k, v) :: rest, t => if k = t then v else countOf rest t

/-- Sum of all counts of a table. -/
def sumCounts (tbl : Table) : Nat := (tbl.map Prod.snd).sum

/-- One dict update result[answer] = result.setdefault(answer, 0) + 1
(source line 68): bump an existing key in place, else append it at the
end with count 1 (dict insertion order). -/
def bumpCount : Table → Str → Table
  | [], k => [(k, 1)]
  | (k0, v) :: rest, k =>
    if k0 = k then (k0, v + 1) :: rest else (k0, v) :: bumpCount rest k

/-- add_answer_to_result, source lines 53-68, threading the table of the
one column being updated: split the raw field on commas, tidy each
fragment, and count each resulting answer. -/
def add_answer_to_result (tidy : Str → Str) (tbl : Table) (field : Str) : Table :=
  (pySplit field).foldl (fun t ans => bumpCount t (tidy ans)) tbl

/-- Python errors surfaced by the embedded fragments. -/
inductive PyErr where
  | stopIteration
  | indexError
deriving DecidableEq, Repr

deriving instance DecidableEq for Except

/-- Python row[i]: the field at index i, or an index error. -/
def getField (row : List Str) (i : Nat) : Except PyErr Str :=
  if h : i < row.length then .ok (row.get ⟨i, h⟩) else .error .indexError

/-- Update the table stored under one column key of the result dict. -/
def updateResult (res : Result) (col : Nat) (f : Table → Table) : Result :=
  res.map fun p => if p.1 = col then (p.1, f p.2) else p

/-- The inner loop of read_csv_and_count, source lines 47-49: run
add_answer_to_result for every target column of one row; accessing a
missing field raises an index error. -/
def processRow (tidy : Str → Str) (row : List Str) :
    List Nat → Result → Except PyErr Result
  | [], res => .ok res
  | tc :: rest, res =>
    match getField row tc with
    | .error e => .error e
    | .ok field =>
      processRow tidy row rest
        (updateResult res tc (fun tbl => add_answer_to_result tidy tbl field))

/-- First-occurrence deduplication, as Python dict comprehension keys. -/
def dedupFirst : List Nat → List Nat
  | [] => []
  | x :: xs => x :: (dedupFirst xs).filter (fun y => decide (y ≠ x))

/-- result = dict comprehension over t_cols with empty dict values,
source line 45: one empty table per distinct target column, in
first-occurrence order. -/
def initResult (tcols : List Nat) : Result :=
  (dedupFirst tcols).map (fun c => (c, ([] : Table)))

/-- The row loop of read_csv_and_count, source lines 46-49. -/
def countRows (tidy : Str → Str) (tcols : List Nat) :
    List (List Str) → Result → Except PyErr Result
  | [], res => .ok res
  | row :: rest, res =>
    match processRow tidy row tcols res with
    | .error e => .error e
    | .ok res2 => countRows tidy tcols rest res2

/-- read_csv_and_count, source lines 32-50: consume the header row
(raising StopIteration when the input has no rows at all), start from
the empty result dict, and fold the body rows. -/
def read_csv_and_count (tidy : Str → Str) (rows : List (List Str))
    (tcols : List Nat) : Except PyErr Result :=
  match rows with
  | [] => .error .stopIteration
  | _hdr :: body => countRows tidy tcols body (initResult tcols)

/-- Stable insertion of one element: keep passing elements of the
already sorted accumulator while le holds of them against x, so an
element equal to x under le stays before x. -/
def insertS (le : α → α → Bool) (x : α) : List α → List α
  | [] => [x]
  | y :: ys => if le y x then y :: insertS le x ys else x :: y :: ys

/-- Stable sort (the semantics of Python sorted): fold the input in
order through stable insertion. -/
def sortS (le : α → α → Bool) (l : List α) : List α :=
  l.foldl (fun acc x => insertS le x acc) []

/-- Python string comparison: lexicographic by code point. -/
def lexLtChars : Str → Str → Bool
  | [], [] => false
  | [], _ :: _ => true
  | _ :: _, [] => false
  | a :: as, b :: bs => if a = b then lexLtChars as bs else decide (a < b)

/-- Tuple comparison used by sorted(f_dict.items()) at source line 109:
compare the token first, the count second. -/
def alphaLe (p q : Str × Nat) : Bool :=
  lexLtChars p.1 q.1 || (decide (p.1 = q.1) && decide (p.2 ≤ q.2))

/-- Comparison of the ranked sort at source lines 115-117:
sorted(..., key=lambda x: x[1], reverse=True) keeps p before a later q
exactly when the count of q does not exceed the count of p. -/
def rankedLe (p q : Str × Nat) : Bool := decide (q.2 ≤ p.2)

/-- The alphabetical listing order, source line 109. -/
def sortAlpha (tbl : Table) : Table := sortS alphaLe tbl

/-- The ranked listing order, source lines 115-117. -/
def sortRanked (tbl : Table) : Table := sortS rankedLe tbl

/-- Decimal rendering of a number, as str.format does. -/
def natStr (n : Nat) : Str := (toString n).toList

/-- One output line: OUTPUT_FORMAT at source line 27 applied at source
lines 110 and 118 to the enumeration index, the token and the count. -/
def OUTPUT_FORMAT_line (idx : Nat) (tok : Str) (cnt : Nat) : Str :=
  natStr idx ++ (". ".toList) ++ tok ++ [':', '\t'] ++ natStr cnt ++ ['\n']

/-- The lines of the ranked listing of one table, source lines 116-118:
enumerate the ranked order from index 0 and format each entry. -/
def rankedLines (tbl : Table) : List Str :=
  (sortRanked tbl).enum.map (fun q => OUTPUT_FORMAT_line q.1 q.2.1 q.2.2)

/-- One section of the report buffer, source lines 103-121. -/
def bufferStep (buf : Str) (p : Nat × Table) : Str :=
  buf ++ ("Results for: ".toList) ++ natStr p.1 ++ ['\n'] ++ ['\n']
      ++ ("Alphabetical sorting:".toList) ++ ['\n'] ++ ['\n']
      ++ ((sortAlpha p.2).enum.foldl
            (fun b q => b ++ OUTPUT_FORMAT_line q.1 q.2.1 q.2.2) [])
      ++ ['\n']
      ++ ("Ranked sorting:".toList) ++ ['\n'] ++ ['\n']
      ++ ((sortRanked p.2).enum.foldl
            (fun b q => b ++ OUTPUT_FORMAT_line q.1 q.2.1 q.2.2) [])
      ++ ['\n'] ++ List.replicate 80 '-' ++ ['\n']

/-- The whole report buffer built by sort_and_save_dict, source lines
102-121; the function then writes exactly this buffer to the output
file (lines 122-123). -/
def sort_and_save_buffer (res : Result) : Str := res.foldl bufferStep []

/-- Observable outcome of the script tail, source lines 202-211: which
error was logged (none on success), the process exit status, whether
the report file was written, and its content. -/
structure MainOutcome where
  errLogged : Option PyErr
  exitCode : Nat
  reportWritten : Bool
  report : Str
deriving DecidableEq, Repr

/-- The script tail, source lines 202-211: result starts empty, the
read pass runs under a try block whose except clause only logs, and
sort_and_save_dict runs unconditionally afterwards; the process then
finishes with exit status 0 on both paths. -/
def script_tail (rows : List (List Str)) (tcols : List Nat) : MainOutcome :=
  match read_csv_and_count tidyF rows tcols with
  | .ok r => ⟨none, 0, true, sort_and_save_buffer r⟩
  | .error e => ⟨some e, 0, true, sort_and_save_buffer []⟩

/-- Modelled from the spec: the output line format claimed in section
4.3, rank first, then the count, the word times, a colon and the token,
with the rank claimed to be 1-based. -/
def spec_line_format (rank : Nat) (cnt : Nat) (tok : Str) : Str :=
  natStr rank ++ (". ".toList) ++ natStr cnt ++ (" times: ".toList) ++ tok

/-- Modelled from the spec: a word character of the regex class used in
section 4.1 (letters, digits and the underscore; ASCII model). -/
def isWordCharSpec (c : Char) : Bool := c.isAlphanum || decide (c = '_')

/-- Modelled from the spec: the tie-breaking discipline claimed for the
ranked listing, section 4.3: whenever two entries carry equal counts,
the earlier entry has the lexically smaller token. -/
def tiesLexAsc (l : Table) : Prop :=
  ∀ i j : Fin l.length, i.val < j.val →
    (l.get i).2 = (l.get j).2 → lexLtChars (l.get i).1 (l.get j).1 = true

instance tiesLexAscDec (l : Table) : Decidable (tiesLexAsc l) :=
  inferInstanceAs (Decidable (∀ i j : Fin l.length, i.val < j.val →
    (l.get i).2 = (l.get j).2 → lexLtChars (l.get i).1 (l.get j).1 = true))

/-- Number of occurrences of a token in a list of tokens. -/
def occurs (t : Str) (l : List Str) : Nat :=
  (l.filter (fun a => decide (a = t))).length

/-! Helper lemmas about splitting and counting. -/

theorem pySplit_ne_nil (s : Str) : pySplit s ≠ [] := by
  induction s with
  | nil => simp [pySplit]
  | cons c rest ih =>
    by_cases hc : c = ','
    · simp [pySplit, hc]
    · simp only [pySplit, if_neg hc]
      cases h : pySplit rest with
      | nil => simp
      | cons t ts => simp

theorem length_pySplit (s : Str) : (pySplit s).length = commaCount s + 1 := by
  induction s with
  | nil => simp [pySplit, commaCount]
  | cons c rest ih =>
    by_cases hc : c = ','
    · simp [pySplit, hc, commaCount, List.filter] at *
      omega
    · simp only [pySplit, if_neg hc]
      cases h : pySplit rest with
      | nil => exact absurd h (pySplit_ne_nil rest)
      | cons t ts =>
        rw [h] at ih
        simp [commaCount, List.filter, hc] at *
        omega

theorem countOf_bumpCount (tbl : Table) (k t : Str) :
    countOf (bumpCount tbl k) t = countOf tbl t + (if k = t then 1 else 0) := by
  induction tbl with
  | nil => simp [bumpCount, countOf]
  | cons p rest ih =>
    obtain ⟨k0, v⟩ := p
    by_cases h0 : k0 = k
    · subst h0
      by_cases ht : k0 = t
      · simp [bumpCount, countOf, ht]
      · simp [bumpCount, countOf, ht]
    · by_cases ht : k0 = t
      · subst ht
        have h1 : ¬ k = k0 := fun h => h0 h.symm
        simp [bumpCount, countOf, h0, h1]
      · simp [bumpCount, countOf, h0, ht, ih]

theorem sumCounts_bumpCount (tbl : Table) (k : Str) :
    sumCounts (bumpCount tbl k) = sumCounts tbl + 1 := by
  induction tbl with
  | nil => simp [bumpCount, sumCounts]
  | cons p rest ih =>
    obtain ⟨k0, v⟩ := p
    by_cases h0 : k0 = k
    · simp [bumpCount, sumCounts, h0]
      omega
    · simp [bumpCount, sumCounts, h0] at *
      omega

theorem occurs_nil (t : Str) : occurs t [] = 0 := rfl

theorem occurs_cons (t a : Str) (l : List Str) :
    occurs t (a :: l) = (if a = t then 1 else 0) + occurs t l := by
  by_cases h : a = t
  · simp [occurs, List.filter, h]
    omega
  · simp [occurs, List.filter, h]

theorem occurs_pos_iff_mem (t : Str) (l : List Str) :
    0 < occurs t l ↔ t ∈ l := by
  induction l with
  | nil => simp [occurs]
  | cons a l ih =>
    rw [occurs_cons]
    by_cases h : a = t
    · subst h; simp
    · have : ¬ t = a := fun hh => h hh.symm
      simp [h, this, ih]

theorem countOf_foldl_bump (tidy : Str → Str) (frags : List Str) :
    ∀ (tbl : Table) (t : Str),
      countOf (frags.foldl (fun tb a => bumpCount tb (tidy a)) tbl) t =
        countOf tbl t + occurs t (frags.map tidy) := by
  induction frags with
  | nil => intro tbl t; simp [occurs]
  | cons a rest ih =>
    intro tbl t
    simp only [List.foldl_cons, List.map_cons]
    rw [ih, countOf_bumpCount, occurs_cons]
    omega

theorem sumCounts_foldl_bump (tidy : Str → Str) (frags : List Str) :
    ∀ tbl : Table,
      sumCounts (frags.foldl (fun tb a => bumpCount tb (tidy a)) tbl) =
        sumCounts tbl + frags.length := by
  induction frags with
  | nil => intro tbl; simp
  | cons a rest ih =>
    intro tbl
    simp only [List.foldl_cons, List.length_cons]
    rw [ih, sumCounts_bumpCount]
    omega

theorem sumCounts_add_answer (tidy : Str → Str) (tbl : Table) (f : Str) :
    sumCounts (add_answer_to_result tidy tbl f) =
      sumCounts tbl + commaCount f + 1 := by
  unfold add_answer_to_result
  rw [sumCounts_foldl_bump, length_pySplit]
  omega

/-! Claim theorems about the tokenizer and counting policy. -/

/-- C1, counterexample: the field cafe,cafe holds the token cafe twice,
and its row makes the count 2, not 1 as the deduplication claim
requires. -/
theorem c1_counterexample :
    read_csv_and_count tidyF [["h".toList], ["cafe,cafe".toList]] [0] =
      .ok [(0, [(("cafe".toList), 2)])] ∧ (2 : Nat) ≠ 1 :=
  ⟨by decide, by decide⟩

/-- C1, amended: tokens are not deduplicated within a field; each
comma-separated fragment of the field raises the count of its tidied
token by one, so a token appearing twice in one field increments its
count twice for that row. -/
theorem c1_each_fragment_counts_once (tbl : Table) (f t : Str) :
    countOf (add_answer_to_result tidyF tbl f) t =
      countOf tbl t + occurs t ((pySplit f).map tidyF) :=
  countOf_foldl_bump tidyF (pySplit f) tbl t

/-- C3, counterexample: the field a b is kept as the single token a b,
which contains a space, a non-word character, so the field was not
split on the regex class of non-word runs. -/
theorem c3_counterexample :
    read_csv_and_count tidyF [["h".toList], ["a b".toList]] [0] =
      .ok [(0, [(("a b".toList), 1)])] ∧
      isWordCharSpec ' ' = false ∧ ' ' ∈ ("a b".toList) :=
  ⟨by decide, by decide, by decide⟩

/-- C3, amended: the tokenizer splits the field on commas only; the
tokens recorded for a field are exactly the comma fragments after
tidying, so empty tokens are kept and tokens may contain non-word
characters. -/
theorem c3_tokens_are_tidied_comma_fragments (f t : Str) :
    0 < countOf (add_answer_to_result tidyF [] f) t ↔
      t ∈ (pySplit f).map tidyF := by
  unfold add_answer_to_result
  rw [countOf_foldl_bump]
  simp [countOf, occurs_pos_iff_mem]

/-- C7, counterexample: a row whose selected field is empty does not
leave the frequency table unchanged; it records one count under the
empty token. -/
theorem c7_counterexample :
    read_csv_and_count tidyF [["h".toList], [[]]] [0] =
      .ok [(0, [([], 1)])] ∧ ([([], 1)] : Table) ≠ [] :=
  ⟨by decide, by decide⟩

/-- C7, amended: the tokenizer is a total function with no error
conditions, but the empty field yields the single empty token, so
processing a row whose selected field is empty adds one count under
the empty string to that column of the frequency table. -/
theorem c7_empty_field_adds_empty_token (tbl : Table) :
    countOf (add_answer_to_result tidyF tbl []) [] = countOf tbl [] + 1 ∧
      tidyF [] = [] := by
  constructor
  · unfold add_answer_to_result
    rw [countOf_foldl_bump]
    simp [occurs_cons, occurs_nil]
    decide
  · decide

/-! Helper lemmas about the result dict skeleton. -/

theorem mem_dedupFirst (l : List Nat) (c : Nat) :
    c ∈ dedupFirst l ↔ c ∈ l := by
  induction l with
  | nil => simp [dedupFirst]
  | cons x xs ih =>
    simp only [dedupFirst, List.mem_cons, List.mem_filter]
    by_cases hc : c = x
    · simp [hc]
    · simp [hc, ih]

theorem nodup_dedupFirst (l : List Nat) : (dedupFirst l).Nodup := by
  induction l with
  | nil => simp [dedupFirst]
  | cons x xs ih =>
    simp only [dedupFirst, List.nodup_cons]
    refine ⟨fun hx => ?_, ih.filter _⟩
    have := (List.mem_filter.mp hx).2
    simp at this

theorem map_fst_initResult (tcols : List Nat) :
    (initResult tcols).map Prod.fst = dedupFirst tcols := by
  simp only [initResult, List.map_map]
  have h : (Prod.fst ∘ fun c : Nat => (c, ([] : Table))) = id := rfl
  rw [h, List.map_id]

/-! Claim theorems about the read pass and the script tail. -/

/-- C9 (confirmed): for a CSV consisting of a header row and zero data
rows, the counter succeeds and returns exactly one frequency table per
distinct selected column, keyed without duplicates, every table
empty. -/
theorem c9_header_only_gives_empty_tables (hdr : List Str) (tcols : List Nat) :
    read_csv_and_count tidyF [hdr] tcols = .ok (initResult tcols) ∧
    (∀ p ∈ initResult tcols, p.2 = ([] : Table)) ∧
    (∀ c : Nat, c ∈ (initResult tcols).map Prod.fst ↔ c ∈ tcols) ∧
    ((initResult tcols).map Prod.fst).Nodup := by
  refine ⟨rfl, ?_, ?_, ?_⟩
  · intro p hp
    simp [initResult] at hp
    obtain ⟨c, _, hc⟩ := hp
    simp [← hc]
  · intro c
    rw [map_fst_initResult]
    exact mem_dedupFirst tcols c
  · rw [map_fst_initResult]
    exact nodup_dedupFirst tcols

/-- C5, counterexample: with a one-column header and target column 5,
a run over zero data rows raises no error at all, and a run over one
short data row fails only with the index error raised while processing
that row; there is no failure before rows are read. -/
theorem c5_counterexample :
    read_csv_and_count tidyF [["h".toList]] [5] = .ok [(5, [])] ∧
    (∀ e : PyErr, (Except.ok [(5, [])] : Except PyErr Result) ≠ .error e) ∧
    read_csv_and_count tidyF [["h".toList], ["x".toList]] [5] =
      .error .indexError :=
  ⟨by decide, fun _ h => Except.noConfusion h, by decide⟩

/-- C5, amended: an out-of-range column index is not validated against
the header before the read pass; with zero data rows the run succeeds
with an empty table under that index, and the failure surfaces as an
index error only when a data row lacking the index is processed. -/
theorem c5_out_of_range_fails_only_on_rows (hdr : List Str) (k : Nat) :
    read_csv_and_count tidyF [hdr] [k] = .ok [(k, [])] ∧
    (∀ (row : List Str) (rest : List (List Str)), row.length ≤ k →
      read_csv_and_count tidyF (hdr :: row :: rest) [k] =
        .error .indexError) := by
  constructor
  · rfl
  · intro row rest h
    have hk : ¬ k < row.length := Nat.not_lt.mpr h
    simp [read_csv_and_count, countRows, processRow, getField, hk]

/-- Witness for c5_out_of_range_fails_only_on_rows at a concrete
header, data row and index. -/
theorem c5_witness :
    read_csv_and_count tidyF [["h".toList]] [3] = .ok [(3, [])] ∧
    read_csv_and_count tidyF [["h".toList], ["x".toList]] [3] =
      .error .indexError :=
  ⟨(c5_out_of_range_fails_only_on_rows ["h".toList] 3).1,
   (c5_out_of_range_fails_only_on_rows ["h".toList] 3).2 ["x".toList] []
     (by decide)⟩

/-- C6, counterexample: on an index error during the read pass the
script logs the error, still finishes with exit status 0 (the claim
requires a non-zero exit) and still writes the report file, rendered
from the empty result (the claim requires that no report be
written). -/
theorem c6_counterexample :
    (script_tail [["h".toList], ["x".toList]] [5]).errLogged =
      some .indexError ∧
    (script_tail [["h".toList], ["x".toList]] [5]).exitCode = 0 ∧
    (script_tail [["h".toList], ["x".toList]] [5]).reportWritten = true :=
  ⟨by decide, by decide, by decide⟩

/-- C6, amended: when the read pass fails, the error is logged and the
run still finishes with exit status zero and writes a report rendered
from the empty result dict, so no partial counts appear in it; when the
read pass succeeds, the report of the aggregated result is written
once, after aggregation is complete, with the same zero exit
status. -/
theorem c6_report_written_on_both_paths :
    (∀ (rows : List (List Str)) (tcols : List Nat) (e : PyErr),
      read_csv_and_count tidyF rows tcols = .error e →
      script_tail rows tcols = ⟨some e, 0, true, sort_and_save_buffer []⟩) ∧
    (∀ (rows : List (List Str)) (tcols : List Nat) (r : Result),
      read_csv_and_count tidyF rows tcols = .ok r →
      script_tail rows tcols = ⟨none, 0, true, sort_and_save_buffer r⟩) := by
  constructor
  · intro rows tcols e h
    simp [script_tail, h]
  · intro rows tcols r h
    simp [script_tail, h]

/-- Witness for c6_report_written_on_both_paths: a failing run and a
succeeding run, both writing their report with exit status zero. -/
theorem c6_witness :
    script_tail [["h".toList], ["x".toList]] [5] =
      ⟨some .indexError, 0, true, sort_and_save_buffer []⟩ ∧
    script_tail [["h".toList]] [0] =
      ⟨none, 0, true, sort_and_save_buffer [(0, [])]⟩ :=
  ⟨c6_report_written_on_both_paths.1 _ _ _ (by decide),
   c6_report_written_on_both_paths.2 _ _ _ (by decide)⟩

/-! Helper lemmas about the ranked stable sort. -/

theorem mem_insertS (le : α → α → Bool) (x a : α) (l : List α) :
    a ∈ insertS le x l → a = x ∨ a ∈ l := by
  induction l with
  | nil => intro h; simpa [insertS] using h
  | cons y ys ih =>
    intro h
    simp only [insertS] at h
    by_cases hw : le y x = true
    · rw [if_pos hw] at h
      rcases List.mem_cons.mp h with rfl | h3
      · exact Or.inr (List.mem_cons_self _ _)
      · rcases ih h3 with h4 | h4
        · exact Or.inl h4
        · exact Or.inr (List.mem_cons_of_mem _ h4)
    · rw [if_neg hw] at h
      rcases List.mem_cons.mp h with rfl | h3
      · exact Or.inl rfl
      · exact Or.inr h3

theorem pairwise_insertS_ranked (x : Str × Nat) (l : Table)
    (h : List.Pairwise (fun a b : Str × Nat => b.2 ≤ a.2) l) :
    List.Pairwise (fun a b : Str × Nat => b.2 ≤ a.2)
      (insertS rankedLe x l) := by
  induction l with
  | nil => simp [insertS]
  | cons y ys ih =>
    rw [List.pairwise_cons] at h
    obtain ⟨hy, hys⟩ := h
    by_cases hle : rankedLe y x = true
    · have hxy : x.2 ≤ y.2 := by simpa [rankedLe] using hle
      simp only [insertS, if_pos hle]
      rw [List.pairwise_cons]
      constructor
      · intro z hz
        rcases mem_insertS rankedLe x z ys hz with rfl | hz2
        · exact hxy
        · exact hy z hz2
      · exact ih hys
    · have hxy : y.2 ≤ x.2 := by
        have : ¬ x.2 ≤ y.2 := by simpa [rankedLe] using hle
        omega
      simp only [insertS, if_neg hle]
      rw [List.pairwise_cons]
      refine ⟨fun z hz => ?_, List.pairwise_cons.mpr ⟨hy, hys⟩⟩
      rcases List.mem_cons.mp hz with rfl | hz2
      · exact hxy
      · exact le_trans (hy z hz2) hxy

theorem filter_insertS_ranked (x : Str × Nat) (l : Table) (n : Nat)
    (h : List.Pairwise (fun a b : Str × Nat => b.2 ≤ a.2) l) :
    (insertS rankedLe x l).filter (fun p => decide (p.2 = n)) =
      if x.2 = n then l.filter (fun p => decide (p.2 = n)) ++ [x]
      else l.filter (fun p => decide (p.2 = n)) := by
  induction l with
  | nil =>
    by_cases hx : x.2 = n <;> simp [insertS, List.filter, hx]
  | cons y ys ih =>
    rw [List.pairwise_cons] at h
    obtain ⟨hy, hys⟩ := h
    by_cases hle : rankedLe y x = true
    · simp only [insertS, if_pos hle]
      by_cases hyn : y.2 = n
      · by_cases hx : x.2 = n <;>
          simp [List.filter, hyn, hx, ih hys]
      · by_cases hx : x.2 = n <;>
          simp [List.filter, hyn, hx, ih hys]
    · have hxy : y.2 < x.2 := by
        have : ¬ x.2 ≤ y.2 := by simpa [rankedLe] using hle
        omega
      simp only [insertS, if_neg hle]
      by_cases hx : x.2 = n
      · have hnil : (y :: ys).filter (fun p => decide (p.2 = n)) = [] := by
          rw [List.filter_eq_nil_iff]
          intro z hz
          have hz2 : z.2 ≤ y.2 := by
            rcases List.mem_cons.mp hz with rfl | hz3
            · exact le_refl _
            · exact hy z hz3
          simp
          omega
        simp [List.filter_cons, hx, hnil]
      · simp [List.filter_cons, hx]

theorem pairwise_sortS_ranked (l : Table) :
    List.Pairwise (fun a b : Str × Nat => b.2 ≤ a.2) (sortS rankedLe l) := by
  suffices h : ∀ acc : Table,
      List.Pairwise (fun a b : Str × Nat => b.2 ≤ a.2) acc →
      List.Pairwise (fun a b : Str × Nat => b.2 ≤ a.2)
        (l.foldl (fun acc x => insertS rankedLe x acc) acc) by
    exact h [] (by simp)
  induction l with
  | nil => intro acc hacc; simpa using hacc
  | cons x xs ih =>
    intro acc hacc
    exact ih _ (pairwise_insertS_ranked x acc hacc)

theorem filter_sortS_ranked (l : Table) (n : Nat) :
    (sortS rankedLe l).filter (fun p => decide (p.2 = n)) =
      l.filter (fun p => decide (p.2 = n)) := by
  suffices h : ∀ acc : Table,
      List.Pairwise (fun a b : Str × Nat => b.2 ≤ a.2) acc →
      (l.foldl (fun acc x => insertS rankedLe x acc) acc).filter
          (fun p => decide (p.2 = n)) =
        acc.filter (fun p => decide (p.2 = n)) ++
          l.filter (fun p => decide (p.2 = n)) by
    simpa using h [] (by simp)
  induction l with
  | nil => intro acc hacc; simp
  | cons x xs ih =>
    intro acc hacc
    simp only [List.foldl_cons]
    rw [ih _ (pairwise_insertS_ranked x acc hacc),
        filter_insertS_ranked x acc n hacc]
    by_cases hx : x.2 = n
    · simp [List.filter, hx, List.append_assoc]
    · simp [List.filter, hx]

/-- C2, counterexample: two tokens with equal counts, first occurrence
b then a; the ranked listing keeps b before a although a is lexically
smaller, so ties are not broken by ascending lexical order. -/
theorem c2_counterexample :
    read_csv_and_count tidyF [["h".toList], ["b".toList], ["a".toList]] [0] =
      .ok [(0, [(("b".toList), 1), (("a".toList), 1)])] ∧
    ¬ tiesLexAsc (sortRanked [(("b".toList), 1), (("a".toList), 1)]) :=
  ⟨by decide, by decide⟩

/-- C2, amended: the ranked listing orders tokens by descending count,
and tokens with equal counts appear in their first-insertion order
(the order of first occurrence in the table), not in lexical order:
for every count the subsequence of entries carrying it is exactly the
subsequence of the unsorted table. -/
theorem c2_ranked_desc_ties_insertion_order (tbl : Table) :
    List.Pairwise (fun a b : Str × Nat => b.2 ≤ a.2) (sortRanked tbl) ∧
    ∀ n : Nat, (sortRanked tbl).filter (fun p => decide (p.2 = n)) =
      tbl.filter (fun p => decide (p.2 = n)) :=
  ⟨pairwise_sortS_ranked tbl, fun n => filter_sortS_ranked tbl n⟩

/-- C4, counterexample: the single entry of a table with token a and
count 2 is rendered as the line 0. a, colon, tab, 2 with a 0-based
rank, which differs from the line the claim requires, rank 1 followed
by the count, the word times and the token. -/
theorem c4_counterexample :
    rankedLines [(("a".toList), 2)] = [("0. a:\t2\n".toList)] ∧
    ("0. a:\t2\n".toList) ≠ spec_line_format 1 2 ("a".toList) ++ ['\n'] :=
  ⟨by decide, by decide⟩

/-- C4, amended: every line of the ranked listing has the format rank,
a dot and a space, the token, a colon and a tab, then the count and a
newline, where the rank is 0-based: the entry at position i of the
ranked order is printed with rank i, the first-ranked token carrying
rank 0. -/
theorem c4_line_format (tbl : Table) (i : Nat) (tok : Str) (cnt : Nat)
    (h : (sortRanked tbl)[i]? = some (tok, cnt)) :
    (rankedLines tbl)[i]? =
      some (natStr i ++ (". ".toList) ++ tok ++ [':', '\t'] ++
        natStr cnt ++ ['\n']) := by
  unfold rankedLines
  rw [List.getElem?_map, List.getElem?_enum, h]
  rfl

/-- Witness for c4_line_format at a concrete one-entry table. -/
theorem c4_witness :
    (rankedLines [(("a".toList), 2)])[0]? =
      some (natStr 0 ++ (". ".toList) ++ ("a".toList) ++ [':', '\t'] ++
        natStr 2 ++ ['\n']) :=
  c4_line_format [(("a".toList), 2)] 0 ("a".toList) 2 (by decide)

/-! Character-level bridge for the tidy function: the replacement loops
of tidy_string_def act character by character, since every pattern and
every replacement of the table is a single character. -/

/-- Character action of the inner replacement loop. -/
def charReplaceables (repl : Char) (ables : List Char) (c : Char) : Char :=
  ables.foldl (fun c old => if c = old then repl else c) c

/-- Character action of the whole replacement dict. -/
def charReplaceDict (table : List (Char × List Char)) (c : Char) : Char :=
  table.foldl (fun c p => charReplaceables p.1 p.2 c) c

/-- Combined character normalization of tidyF before stripping:
lowercase, then run the replacement dict. -/
def nChar (c : Char) : Char :=
  charReplaceDict replaceable_chars (pyLowerChar c)

/-- The keys of the lowercasing table. -/
def lowerKeys : List Char := lowerPairs.map Prod.fst

/-- All replaceable characters of the replacement table. -/
def allOlds : List Char := replaceable_chars.flatMap Prod.snd

theorem applyReplaceables_map (repl : Char) (ables : List Char) :
    ∀ (f : Char → Char) (s : Str), applyReplaceables repl ables (s.map f) =
      s.map (fun c => charReplaceables repl ables (f c)) := by
  induction ables with
  | nil => intro f s; rfl
  | cons a as ih =>
    intro f s
    have h1 : applyReplaceables repl (a :: as) (s.map f) =
        applyReplaceables repl as (replaceOne a repl (s.map f)) := rfl
    have h2 : replaceOne a repl (s.map f) =
        s.map (fun c => if f c = a then repl else f c) := by
      rw [replaceOne, List.map_map]
      exact List.map_congr_left fun c _ => rfl
    rw [h1, h2, ih]
    exact List.map_congr_left fun c _ => rfl

theorem applyReplaceDict_map (table : List (Char × List Char)) :
    ∀ (f : Char → Char) (s : Str), applyReplaceDict table (s.map f) =
      s.map (fun c => charReplaceDict table (f c)) := by
  induction table with
  | nil => intro f s; rfl
  | cons p ps ih =>
    intro f s
    have h1 : applyReplaceDict (p :: ps) (s.map f) =
        applyReplaceDict ps (applyReplaceables p.1 p.2 (s.map f)) := rfl
    rw [h1, applyReplaceables_map, ih]
    exact List.map_congr_left fun c _ => rfl

theorem tidyF_eq_strip_map (s : Str) : tidyF s = pyStrip (s.map nChar) := by
  unfold tidyF tidy_string_def pyLower
  rw [applyReplaceDict_map]
  exact congrArg pyStrip (List.map_congr_left fun c _ => rfl)

theorem lookup_getD_self (ps : List (Char × Char)) (c : Char)
    (h : ∀ p ∈ ps, c ≠ p.1) : (ps.lookup c).getD c = c := by
  induction ps with
  | nil => simp [List.lookup]
  | cons p ps ih =>
    have hc : ¬ c = p.1 := h p (List.mem_cons_self _ _)
    have hbeq : (c == p.1) = false := by
      simpa using hc
    simp only [List.lookup, hbeq]
    exact ih fun q hq => h q (List.mem_cons_of_mem _ hq)

theorem charReplaceables_id (repl : Char) (ables : List Char) (c : Char)
    (h : c ∉ ables) : charReplaceables repl ables c = c := by
  induction ables with
  | nil => rfl
  | cons a as ih =>
    have hca : ¬ c = a := fun hc => h (hc ▸ List.mem_cons_self _ _)
    have h2 : c ∉ as := fun hc => h (List.mem_cons_of_mem _ hc)
    simp only [charReplaceables, List.foldl_cons, if_neg hca]
    exact ih h2

theorem charReplaceDict_id (table : List (Char × List Char)) (c : Char)
    (h : ∀ p ∈ table, c ∉ p.2) : charReplaceDict table c = c := by
  induction table with
  | nil => rfl
  | cons p ps ih =>
    simp only [charReplaceDict, List.foldl_cons]
    rw [show charReplaceables p.1 p.2 c = c from
      charReplaceables_id p.1 p.2 c (h p (List.mem_cons_self _ _))]
    exact ih fun q hq => h q (List.mem_cons_of_mem _ hq)

theorem nChar_fix_of_not_mem (c : Char) (h1 : c ∉ lowerKeys)
    (h2 : c ∉ allOlds) : nChar c = c := by
  have hl : pyLowerChar c = c := by
    apply lookup_getD_self
    intro p hp hc
    exact h1 (hc ▸ List.mem_map_of_mem Prod.fst hp)
  have hr : charReplaceDict replaceable_chars c = c := by
    apply charReplaceDict_id
    intro p hp hc
    exact h2 (List.mem_flatMap.mpr ⟨p, hp, hc⟩)
  unfold nChar
  rw [hl, hr]

set_option maxRecDepth 4000 in
theorem nChar_lowerKeys_idem : ∀ c ∈ lowerKeys, nChar (nChar c) = nChar c := by
  decide

set_option maxRecDepth 4000 in
theorem nChar_allOlds_idem : ∀ c ∈ allOlds, nChar (nChar c) = nChar c := by
  decide

set_option maxRecDepth 4000 in
theorem nChar_lowerKeys_space :
    ∀ c ∈ lowerKeys, pyIsSpace (nChar c) = pyIsSpace c := by
  decide

set_option maxRecDepth 4000 in
theorem nChar_allOlds_space :
    ∀ c ∈ allOlds, pyIsSpace (nChar c) = pyIsSpace c := by
  decide

theorem nChar_idem (c : Char) : nChar (nChar c) = nChar c := by
  by_cases h1 : c ∈ lowerKeys
  · exact nChar_lowerKeys_idem c h1
  by_cases h2 : c ∈ allOlds
  · exact nChar_allOlds_idem c h2
  rw [nChar_fix_of_not_mem c h1 h2, nChar_fix_of_not_mem c h1 h2]

theorem nChar_space (c : Char) : pyIsSpace (nChar c) = pyIsSpace c := by
  by_cases h1 : c ∈ lowerKeys
  · exact nChar_lowerKeys_space c h1
  by_cases h2 : c ∈ allOlds
  · exact nChar_allOlds_space c h2
  rw [nChar_fix_of_not_mem c h1 h2]

/-! Lemmas about str.strip. -/

theorem dropWhile_dropWhile (p : Char → Bool) (l : Str) :
    (l.dropWhile p).dropWhile p = l.dropWhile p := by
  induction l with
  | nil => rfl
  | cons x xs ih =>
    cases hp : p x
    · simp [List.dropWhile, hp]
    · simp [List.dropWhile, hp, ih]

theorem dropWhile_head_false (p : Char → Bool) :
    ∀ (l : Str) (x : Char) (xs : Str),
      l.dropWhile p = x :: xs → p x = false := by
  intro l
  induction l with
  | nil => intro x xs h; simp [List.dropWhile] at h
  | cons a as ih =>
    intro x xs h
    cases hp : p a
    · simp only [List.dropWhile, hp] at h
      injection h with h1 h2
      exact h1 ▸ hp
    · simp only [List.dropWhile, hp] at h
      exact ih x xs h

theorem dropWhile_is_tail (p : Char → Bool) (l : Str) :
    ∃ u : Str, l = u ++ l.dropWhile p := by
  induction l with
  | nil => exact ⟨[], rfl⟩
  | cons a as ih =>
    cases hp : p a
    · exact ⟨[], by simp [List.dropWhile, hp]⟩
    · obtain ⟨u, hu⟩ := ih
      exact ⟨a :: u, by simp [List.dropWhile, hp]; exact hu⟩

theorem pyStrip_idem (s : Str) : pyStrip (pyStrip s) = pyStrip s := by
  unfold pyStrip
  set p := pyIsSpace with hp
  set a := s.dropWhile p with ha
  set b := a.reverse.dropWhile p with hb
  have hdt : b.reverse.dropWhile p = b.reverse := by
    cases ht : b.reverse with
    | nil => rfl
    | cons x t2 =>
      obtain ⟨u, hu⟩ := dropWhile_is_tail p a.reverse
      have hax : a = x :: (t2 ++ u.reverse) := by
        have : a = b.reverse ++ u.reverse := by
          rw [← List.reverse_append, ← hu, List.reverse_reverse]
        rw [this, ht]
        simp
      have hx : p x = false := by
        apply dropWhile_head_false p s x (t2 ++ u.reverse)
        rw [← ha]
        exact hax
      simp [List.dropWhile, hx]
  rw [hdt, List.reverse_reverse, dropWhile_dropWhile]

theorem dropWhile_map_comm (f : Char → Char) (p : Char → Bool)
    (hf : ∀ c, p (f c) = p c) (l : Str) :
    (l.map f).dropWhile p = (l.dropWhile p).map f := by
  induction l with
  | nil => rfl
  | cons a as ih =>
    cases hpa : p a
    · simp [List.dropWhile, hf a, hpa]
    · simp [List.dropWhile, hf a, hpa, ih]

theorem pyStrip_map_comm (f : Char → Char)
    (hf : ∀ c, pyIsSpace (f c) = pyIsSpace c) (s : Str) :
    pyStrip (s.map f) = (pyStrip s).map f := by
  unfold pyStrip
  rw [dropWhile_map_comm f pyIsSpace hf, ← List.map_reverse,
      dropWhile_map_comm f pyIsSpace hf, ← List.map_reverse]

/-- C8 (confirmed): under the configured replacement table of the
source (replaceable_chars, lines 20-25), the normalization function
tidy_string_def is idempotent: tidying an already tidied string changes
nothing. -/
theorem c8_tidy_idempotent (s : Str) : tidyF (tidyF s) = tidyF s := by
  have hmap : (s.map nChar).map nChar = s.map nChar := by
    induction s with
    | nil => rfl
    | cons a as ih =>
      simp only [List.map_cons]
      rw [ih, nChar_idem a]
  calc tidyF (tidyF s)
      = pyStrip ((tidyF s).map nChar) := tidyF_eq_strip_map _
    _ = pyStrip ((pyStrip (s.map nChar)).map nChar) := by
        rw [tidyF_eq_strip_map s]
    _ = pyStrip (pyStrip ((s.map nChar).map nChar)) := by
        rw [← pyStrip_map_comm nChar nChar_space]
    _ = pyStrip (pyStrip (s.map nChar)) := by rw [hmap]
    _ = pyStrip (s.map nChar) := pyStrip_idem _
    _ = tidyF s := (tidyF_eq_strip_map s).symm

/-! Helper lemmas for the row loop of the counter. -/

theorem space_nChar_fix : ∀ c ∈ pySpaceChars, nChar c = c := by decide

theorem mem_of_pyIsSpace (c : Char) (h : pyIsSpace c = true) :
    c ∈ pySpaceChars := by
  simpa [pyIsSpace, List.elem_iff] using h

theorem tidyF_allspace (f : Str) (h : ∀ c ∈ f, pyIsSpace c = true) :
    tidyF f = [] := by
  rw [tidyF_eq_strip_map]
  have hmap : f.map nChar = f := by
    have h2 : f.map nChar = f.map id :=
      List.map_congr_left fun c hc =>
        space_nChar_fix c (mem_of_pyIsSpace c (h c hc))
    rw [h2, List.map_id]
  rw [hmap]
  have hdrop : f.dropWhile pyIsSpace = [] := by
    rw [List.dropWhile_eq_nil_iff]
    exact h
  unfold pyStrip
  rw [hdrop]
  rfl

theorem pySplit_no_comma (f : Str) (h : ∀ c ∈ f, ¬ c = ',') :
    pySplit f = [f] := by
  induction f with
  | nil => rfl
  | cons c cs ih =>
    have hc : ¬ c = ',' := h c (List.mem_cons_self _ _)
    have ih2 : pySplit cs = [cs] := ih fun d hd => h d (List.mem_cons_of_mem _ hd)
    simp [pySplit, hc, ih2]

theorem getField_ok (row : List Str) (c : Nat) (h : c < row.length) :
    getField row c = .ok (row.getD c []) := by
  simp only [getField, dif_pos h]
  rw [List.getD_eq_getElem row [] h]
  rfl

theorem updateResult_fst (res : Result) (col : Nat) (f : Table → Table) :
    (updateResult res col f).map Prod.fst = res.map Prod.fst := by
  unfold updateResult
  rw [List.map_map]
  apply List.map_congr_left
  intro p _
  by_cases h : p.1 = col <;> simp [h]

theorem mem_updateResult_self (res : Result) (col : Nat) (f : Table → Table)
    (tbl : Table) (h : (col, tbl) ∈ res) :
    (col, f tbl) ∈ updateResult res col f := by
  unfold updateResult
  refine List.mem_map.mpr ⟨(col, tbl), h, ?_⟩
  simp

theorem mem_updateResult_other (res : Result) (col c : Nat)
    (f : Table → Table) (tbl : Table) (hne : c ≠ col) :
    (c, tbl) ∈ updateResult res col f ↔ (c, tbl) ∈ res := by
  unfold updateResult
  constructor
  · intro h
    obtain ⟨p, hp, he⟩ := List.mem_map.mp h
    by_cases h1 : p.1 = col
    · rw [if_pos h1] at he
      have h2 : p.1 = c := by
        have := congrArg Prod.fst he
        simpa using this
      exact absurd (h2 ▸ h1) hne
    · rw [if_neg h1] at he
      exact he ▸ hp
  · intro h
    refine List.mem_map.mpr ⟨(c, tbl), h, ?_⟩
    simp [hne]

theorem processRow_ok (tidy : Str → Str) (row : List Str) :
    ∀ (tcols : List Nat) (res : Result), (∀ c ∈ tcols, c < row.length) →
      processRow tidy row tcols res = .ok
        (tcols.foldl (fun r c =>
          updateResult r c
            (fun tbl => add_answer_to_result tidy tbl (row.getD c []))) res) := by
  intro tcols
  induction tcols with
  | nil => intro res _; rfl
  | cons c cs ih =>
    intro res h
    have hc : c < row.length := h c (List.mem_cons_self _ _)
    simp only [processRow, getField_ok row c hc, List.foldl_cons]
    exact ih _ fun d hd => h d (List.mem_cons_of_mem _ hd)

theorem foldl_update_not_mem (tidy : Str → Str) (row : List Str) (tc : Nat)
    (tbl : Table) :
    ∀ (cs : List Nat) (res : Result), tc ∉ cs → (tc, tbl) ∈ res →
      (tc, tbl) ∈ cs.foldl (fun r c =>
        updateResult r c
          (fun t => add_answer_to_result tidy t (row.getD c []))) res := by
  intro cs
  induction cs with
  | nil => intro res _ h; exact h
  | cons c cs ih =>
    intro res hn h
    have hne : tc ≠ c := fun he => hn (he ▸ List.mem_cons_self _ _)
    simp only [List.foldl_cons]
    apply ih _ fun hm => hn (List.mem_cons_of_mem _ hm)
    exact (mem_updateResult_other res c tc _ tbl hne).mpr h

theorem foldl_update_entry (tidy : Str → Str) (row : List Str) :
    ∀ (cs : List Nat) (res : Result) (tc : Nat) (tbl : Table),
      cs.Nodup → tc ∈ cs → (tc, tbl) ∈ res →
      (tc, add_answer_to_result tidy tbl (row.getD tc [])) ∈
        cs.foldl (fun r c =>
          updateResult r c
            (fun t => add_answer_to_result tidy t (row.getD c []))) res := by
  intro cs
  induction cs with
  | nil => intro res tc tbl _ h; simp at h
  | cons c cs ih =>
    intro res tc tbl hnd htc hres
    rw [List.nodup_cons] at hnd
    simp only [List.foldl_cons]
    rcases List.mem_cons.mp htc with rfl | hm
    · apply foldl_update_not_mem tidy row tc _ cs _ hnd.1
      exact mem_updateResult_self res tc _ tbl hres
    · have hne : tc ≠ c := fun he => hnd.1 (he ▸ hm)
      exact ih _ tc tbl hnd.2 hm
        ((mem_updateResult_other res c tc _ tbl hne).mpr hres)

theorem countRows_entry (tidy : Str → Str) (tcols : List Nat)
    (hnd : tcols.Nodup) :
    ∀ (body : List (List Str)) (res : Result) (tc : Nat) (tbl : Table),
      (∀ row ∈ body, ∀ c ∈ tcols, c < row.length) → tc ∈ tcols →
      (tc, tbl) ∈ res →
      ∃ res2, countRows tidy tcols body res = .ok res2 ∧
        (tc, body.foldl (fun t row =>
          add_answer_to_result tidy t (row.getD tc [])) tbl) ∈ res2 := by
  intro body
  induction body with
  | nil => intro res tc tbl _ _ hres; exact ⟨res, rfl, hres⟩
  | cons row rest ih =>
    intro res tc tbl hw htc hres
    have hrow : ∀ c ∈ tcols, c < row.length := hw row (List.mem_cons_self _ _)
    have hrest : ∀ r ∈ rest, ∀ c ∈ tcols, c < r.length :=
      fun r hr => hw r (List.mem_cons_of_mem _ hr)
    obtain ⟨res2, h1, h2⟩ := ih
      (tcols.foldl (fun r c =>
        updateResult r c
          (fun t => add_answer_to_result tidy t (row.getD c []))) res)
      tc (add_answer_to_result tidy tbl (row.getD tc []))
      hrest htc (foldl_update_entry tidy row tcols res tc tbl hnd htc hres)
    refine ⟨res2, ?_, ?_⟩
    · simp only [countRows, processRow_ok tidy row tcols res hrow]
      exact h1
    · simpa using h2

theorem sumCounts_colFold (tidy : Str → Str) (tc : Nat) :
    ∀ (body : List (List Str)) (tbl : Table),
      sumCounts (body.foldl (fun t row =>
        add_answer_to_result tidy t (row.getD tc [])) tbl) =
      sumCounts tbl +
        (body.map (fun row => commaCount (row.getD tc []) + 1)).sum := by
  intro body
  induction body with
  | nil => intro tbl; simp
  | cons row rest ih =>
    intro tbl
    simp only [List.foldl_cons, List.map_cons, List.sum_cons]
    rw [ih, sumCounts_add_answer]
    omega

/-- C10 (confirmed): over well-formed rows and a duplicate-free column
selection, the sum of all counts of a selected column in the final
frequency table equals the total number of comma-separated fragments
of that column across the data rows, one more than the number of
commas per row; and an empty or whitespace-only field still
contributes one occurrence, recorded under the empty-string token. -/
theorem c10_column_sum_invariant :
    (∀ (hdr : List Str) (body : List (List Str)) (tcols : List Nat)
       (tc : Nat) (res : Result),
      tcols.Nodup →
      (∀ row ∈ body, ∀ c ∈ tcols, c < row.length) →
      tc ∈ tcols →
      read_csv_and_count tidyF (hdr :: body) tcols = .ok res →
      ∃ tbl, (tc, tbl) ∈ res ∧
        sumCounts tbl =
          (body.map (fun row => commaCount (row.getD tc []) + 1)).sum) ∧
    (∀ (f : Str) (tbl : Table), (∀ c ∈ f, pyIsSpace c = true) →
      countOf (add_answer_to_result tidyF tbl f) [] = countOf tbl [] + 1) := by
  constructor
  · intro hdr body tcols tc res hnd hw htc hread
    have hinit : (tc, ([] : Table)) ∈ initResult tcols :=
      List.mem_map.mpr ⟨tc, (mem_dedupFirst tcols tc).mpr htc, rfl⟩
    obtain ⟨res2, h1, h2⟩ :=
      countRows_entry tidyF tcols hnd body (initResult tcols) tc [] hw htc hinit
    have hres : res = res2 := by
      have hread2 : countRows tidyF tcols body (initResult tcols) = .ok res :=
        hread
      rw [hread2] at h1
      injection h1
    refine ⟨_, hres ▸ h2, ?_⟩
    rw [sumCounts_colFold]
    simp [sumCounts]
  · intro f tbl hsp
    have hsplit : pySplit f = [f] := by
      apply pySplit_no_comma
      intro c hc he
      have := mem_of_pyIsSpace c (hsp c hc)
      rw [he] at this
      simp [pySpaceChars] at this
    have htidy : tidyF f = [] := tidyF_allspace f hsp
    unfold add_answer_to_result
    rw [hsplit]
    simp only [List.foldl_cons, List.foldl_nil, htidy]
    rw [countOf_bumpCount]
    simp

/-- Witness for c10_column_sum_invariant: a run over the rows a,,b and
the empty row in one column sums to 4 fragments, and the whitespace
field of one space adds one count under the empty token. -/
theorem c10_witness :
    (∃ tbl,
      (0, tbl) ∈ [(0, [(("a".toList), 1), ([], 2), (("b".toList), 1)])] ∧
      sumCounts tbl = 4) ∧
    countOf (add_answer_to_result tidyF [] (" ".toList)) [] =
      countOf ([] : Table) [] + 1 :=
  ⟨c10_column_sum_invariant.1 ["h".toList] [["a,,b".toList], [[]]] [0] 0
      [(0, [(("a".toList), 1), ([], 2), (("b".toList), 1)])]
      (by decide) (by decide) (by decide) (by decide),
   c10_column_sum_invariant.2 (" ".toList) [] (by decide)⟩

/-- Sanity check of the embedding on the example of section 8 of the
spec: the single field of the spec example is split on commas and each
fragment tidied to the token cafe, counted three times. -/
theorem legacy_cafe_example :
    read_csv_and_count tidyF [["h".toList], ["Café, café, CAFE".toList]] [0] =
      .ok [(0, [(("cafe".toList), 3)])] := by decide
